import Mathlib

set_option allowUnsafeReducibility true
attribute [semireducible] Rat.mul Rat.inv Rat.add Rat.sub

/-!
Verification of the layout-recovery core of DockerOCR
(`src/paddle-server/server.py`): the Column Detector
`detect_table_columns_histogram` and the Block Sequencer
`sort_blocks_by_table_columns`, shallowly embedded over rational
coordinates.  Python floats are modelled by `ℚ`, Python ints by `ℤ`/`ℕ`,
and a raised exception by `Option.none`.  Python `sorted` is a stable
sort; it is modelled by `List.insertionSort`, which Mathlib proves
stable, sorted and a permutation of its input.  The two `Rat` attribute
lines above only restore default unfolding of the arithmetic so that
concrete runs of the embedded code reduce inside `decide`; they change no
statement and no axiom.
-/

namespace DockerOCR

/-- One OCR text block, the dict `{'text': ..., 'confidence': ..., 'bbox': ...}`.
A missing `bbox` key behaves exactly like an empty list in the code
(every read is `block.get('bbox', [])` except the fallback sort key, which
raises on both), so an absent bbox is modelled by `[]`. -/
structure Block where
  text : String
  confidence : ℚ
  bbox : List (ℚ × ℚ)
deriving DecidableEq

/-- Python `min` over a list of numbers; the code only applies it to
nonempty lists, `0` is a junk value for `[]`. -/
def pyMin : List ℚ → ℚ
  | [] => 0
  | x :: xs => xs.foldl min x

/-- Left edge of a block: `min_x = min(coord[0] for coord in bbox)`. -/
def leftX (b : Block) : ℚ := pyMin (b.bbox.map Prod.fst)

/-- Top edge of a block: `min_y = min(coord[1] for coord in bbox)`. -/
def topY (b : Block) : ℚ := pyMin (b.bbox.map Prod.snd)

/-- The guard `if bbox and len(bbox) > 0` used both by the detector and by
the table-mode assignment: the block has a nonempty bbox. -/
def usable (b : Block) : Bool := !b.bbox.isEmpty

/-- Left edges of the usable blocks, in input order (the `x_coords` list). -/
def x_coords (blocks : List Block) : List ℚ :=
  blocks.filterMap fun b => if usable b then some (leftX b) else none

/-- Adaptive bin count `num_bins = max(20, image_width // 40)`. -/
def num_bins (image_width : ℤ) : ℕ := (max 20 (image_width / 40)).toNat

/-- Edge `i` of the histogram bins over `range=(0, image_width)`:
`np.histogram` spaces them evenly, edge `i` sits at `image_width * i / num_bins`. -/
def bin_edge (image_width : ℤ) (i : ℕ) : ℚ :=
  (image_width : ℚ) * i / (num_bins image_width : ℚ)

/-- Bin index that `np.histogram(xs, bins=num_bins, range=(0, image_width))`
assigns to a value: values outside `[0, image_width]` are not counted at
all, and the last bin is closed on the right. -/
def binIdx (image_width : ℤ) (x : ℚ) : Option ℕ :=
  if x < 0 ∨ (image_width : ℚ) < x then none
  else some (min (Rat.floor (x * (num_bins image_width : ℚ) / (image_width : ℚ))).toNat
                 (num_bins image_width - 1))

/-- Histogram count `hist[i]`: how many x-coordinates fall in bin `i`. -/
def hist (image_width : ℤ) (xs : List ℚ) (i : ℕ) : ℕ :=
  xs.countP fun x => decide (binIdx image_width x = some i)

/-- Peak-acceptance threshold `max(3, len(blocks) // 20)`; it is computed
from the total block count, unusable blocks included. -/
def threshold (blocks : List Block) : ℕ := max 3 (blocks.length / 20)

/-- Candidate peaks: the loop `for i in range(1, len(hist) - 1)` keeps the
interior bins whose count meets the threshold and is `>=` both neighbours,
and records the bin midpoint `(bin_edges[i] + bin_edges[i+1]) / 2`. -/
def raw_peaks (blocks : List Block) (image_width : ℤ) : List ℚ :=
  ((List.range' 1 (num_bins image_width - 2)).filter fun i =>
      decide (threshold blocks ≤ hist image_width (x_coords blocks) i ∧
        hist image_width (x_coords blocks) (i - 1) ≤
          hist image_width (x_coords blocks) i ∧
        hist image_width (x_coords blocks) (i + 1) ≤
          hist image_width (x_coords blocks) i)).map
    fun i => (bin_edge image_width i + bin_edge image_width (i + 1)) / 2

/-- Body of the peak-merging loop: starting from the last accepted peak,
keep exactly the peaks lying more than 50 past the last kept one. -/
def mergeLoop (last : ℚ) : List ℚ → List ℚ
  | [] => []
  | p :: ps => if 50 < p - last then p :: mergeLoop p ps else mergeLoop last ps

/-- Peak merging: `merged_peaks = [peaks[0]]`, then each later peak is
appended iff it exceeds the last kept peak by more than 50. -/
def merge_peaks : List ℚ → List ℚ
  | [] => []
  | p :: ps => p :: mergeLoop p ps

/-- Peaks after the guarded merge step (`if len(peaks) > 1:` in the code;
for zero or one peak the list is left as is, which coincides with
`merge_peaks` anyway). -/
def merged_peaks (blocks : List Block) (image_width : ℤ) : List ℚ :=
  if 1 < (raw_peaks blocks image_width).length then
    merge_peaks (raw_peaks blocks image_width)
  else raw_peaks blocks image_width

/-- Column Detector `detect_table_columns_histogram(blocks, image_width)`
from `src/paddle-server/server.py`: histogram analysis of the usable
blocks' left edges; returns the merged peak list (sorted) when at least
two peaks survive, else `[]`.  Faithful for `image_width > 0` (the spec's
data-model invariant; `np.histogram` rejects a negative range). -/
def detect_table_columns_histogram (blocks : List Block) (image_width : ℤ) : List ℚ :=
  if blocks.length < 5 then []
  else if (x_coords blocks).length < 5 then []
  else if 2 ≤ (merged_peaks blocks image_width).length then
    List.insertionSort (· ≤ ·) (merged_peaks blocks image_width)
  else []

/-- Lexicographic order on coordinate pairs, exactly how Python compares
the 2-tuples used as sort keys. -/
def pairLE (a b : ℚ × ℚ) : Prop := a.1 < b.1 ∨ (a.1 = b.1 ∧ a.2 ≤ b.2)

instance (a b : ℚ × ℚ) : Decidable (pairLE a b) :=
  inferInstanceAs (Decidable (_ ∨ _))

/-- Fallback sort key `(b['bbox'][0][1], b['bbox'][0][0])`: the y then x
coordinate of the FIRST bbox point (the code raises on an empty bbox; the
`headD` junk value is only ever reachable behind the all-usable guard). -/
def fallbackKey (b : Block) : ℚ × ℚ :=
  ((b.bbox.headD (0, 0)).2, (b.bbox.headD (0, 0)).1)

/-- Comparison underlying the fallback `sorted(blocks, key=...)`. -/
def fallbackLE (a b : Block) : Prop := pairLE (fallbackKey a) (fallbackKey b)

instance (a b : Block) : Decidable (fallbackLE a b) :=
  inferInstanceAs (Decidable (pairLE _ _))

/-- One entry of `blocks_with_column`: the dict
`{'block': block, 'column': column_idx, 'y': min_y, 'x': min_x}`. -/
structure BlockWithColumn where
  block : Block
  column : ℕ
  y : ℚ
  x : ℚ
deriving DecidableEq

/-- Column-assignment loop: `column_idx = 0`, then for each boundary (in
list order, with its index `i`), if `min_x >= boundary` set
`column_idx = i + 1`. -/
def columnIdxAux (min_x : ℚ) : List ℚ → ℕ → ℕ → ℕ
  | [], _, acc => acc
  | b :: bs, i, acc => columnIdxAux min_x bs (i + 1) (if b ≤ min_x then i + 1 else acc)

/-- Column index assigned to a block with left edge `min_x`. -/
def columnIdx (min_x : ℚ) (boundaries : List ℚ) : ℕ :=
  columnIdxAux min_x boundaries 0 0

/-- Lexicographic order on `(column, y, x)` triples, how Python compares
the table-mode sort keys. -/
def tripleLE (a b : ℕ × ℚ × ℚ) : Prop :=
  a.1 < b.1 ∨ (a.1 = b.1 ∧ (a.2.1 < b.2.1 ∨ (a.2.1 = b.2.1 ∧ a.2.2 ≤ b.2.2)))

instance (a b : ℕ × ℚ × ℚ) : Decidable (tripleLE a b) :=
  inferInstanceAs (Decidable (_ ∨ _))

/-- Comparison underlying `sorted(blocks_with_column, key=lambda b:
(b['column'], b['y'], b['x']))`. -/
def tableLE (a b : BlockWithColumn) : Prop :=
  tripleLE (a.column, a.y, a.x) (b.column, b.y, b.x)

instance (a b : BlockWithColumn) : Decidable (tableLE a b) :=
  inferInstanceAs (Decidable (tripleLE _ _))

/-- Table-mode per-block step: skip the block when its bbox is empty,
else record it with its column index, top edge and left edge. -/
def toEntry (boundaries : List ℚ) (b : Block) : Option BlockWithColumn :=
  if b.bbox.isEmpty then none
  else some ⟨b, columnIdx (leftX b) boundaries, topY b, leftX b⟩

/-- Block Sequencer `sort_blocks_by_table_columns(blocks, image_width)`
from `src/paddle-server/server.py`.  `none` models an uncaught exception:
the only raising path is the fallback `sorted` key `b['bbox'][0]`, which
raises IndexError (empty bbox) or KeyError (missing key) and aborts the
call.  Both stable `sorted` calls are modelled by `List.insertionSort`. -/
def sort_blocks_by_table_columns (blocks : List Block) (image_width : ℤ)
    : Option (List Block) :=
  if blocks.length = 0 then some blocks
  else if (detect_table_columns_histogram blocks image_width).length < 2 then
    if blocks.all usable then some (List.insertionSort fallbackLE blocks) else none
  else
    some ((List.insertionSort tableLE
      (blocks.filterMap (toEntry (detect_table_columns_histogram blocks image_width)))).map
        BlockWithColumn.block)

/-- Fallback ordering as the SPEC words it (a stable sort by the key
`(top_y, left_x)` built from the coordinate MINIMA of the bbox), stated
here for comparison with the code's first-point key. -/
def specFallbackLE (a b : Block) : Prop := pairLE (topY a, leftX a) (topY b, leftX b)

instance (a b : Block) : Decidable (specFallbackLE a b) :=
  inferInstanceAs (Decidable (pairLE _ _))

/-- Fallback ordering as the SPEC words it. -/
def specFallbackOrder (blocks : List Block) : List Block :=
  List.insertionSort specFallbackLE blocks

/-- Strict 50-pixel gap between consecutive boundaries, the invariant the
peak-merging loop maintains. -/
def gap50 (a b : ℚ) : Prop := 50 < b - a

/-- Default block used only for positional (`getD`) reasoning in the
noninterference statement; it never influences any value. -/
def dfltBlock : Block := ⟨"", 0, []⟩

/-- Comparator on input positions induced by the fallback key. -/
def posLE (blocks : List Block) (i j : ℕ) : Prop :=
  fallbackLE (blocks.getD i dfltBlock) (blocks.getD j dfltBlock)

instance (blocks : List Block) (i j : ℕ) : Decidable (posLE blocks i j) :=
  inferInstanceAs (Decidable (fallbackLE _ _))

/-- Table-mode entry built for the block at input position `i`. -/
def entryOf (blocks : List Block) (boundaries : List ℚ) (i : ℕ) : BlockWithColumn :=
  ⟨blocks.getD i dfltBlock,
   columnIdx (leftX (blocks.getD i dfltBlock)) boundaries,
   topY (blocks.getD i dfltBlock), leftX (blocks.getD i dfltBlock)⟩

/-- Comparator on input positions induced by the table-mode key. -/
def posTableLE (blocks : List Block) (boundaries : List ℚ) (i j : ℕ) : Prop :=
  tableLE (entryOf blocks boundaries i) (entryOf blocks boundaries j)

instance (blocks : List Block) (boundaries : List ℚ) (i j : ℕ) :
    Decidable (posTableLE blocks boundaries i j) :=
  inferInstanceAs (Decidable (tableLE _ _))

/-- Relation for the noninterference claim: the two input lists agree
position by position on every bbox (hence also in length), while text and
confidence may differ arbitrarily. -/
def SameBboxes (bs₁ bs₂ : List Block) : Prop :=
  List.Forall₂ (fun a b => a.bbox = b.bbox) bs₁ bs₂

/-- Concrete test block: an axis-aligned 60 by 10 quad with top-left
corner `(x, y)`, so its first bbox point realises both minima. -/
def mkBlock (t : String) (x y : ℚ) : Block :=
  ⟨t, 9 / 10, [(x, y), (x + 60, y), (x + 60, y + 10), (x, y + 10)]⟩

/-- Same geometry as `mkBlock` but different text and confidence, for the
noninterference witness. -/
def mkBlockAlt (t : String) (x y : ℚ) : Block :=
  ⟨t, 1 / 3, [(x, y), (x + 60, y), (x + 60, y + 10), (x, y + 10)]⟩

/-- Six blocks forming two clear columns at `x = 30` and `x = 130` in a
width-500 image: the detector finds boundaries `[75/2, 275/2]`. -/
def sixBlocks : List Block :=
  [mkBlock "a0" 30 0, mkBlock "a1" 30 50, mkBlock "a2" 30 100,
   mkBlock "b0" 130 0, mkBlock "b1" 130 50, mkBlock "b2" 130 100]

/-- The blocks of `sixBlocks` with other texts and confidences. -/
def sixBlocksAlt : List Block :=
  [mkBlockAlt "x0" 30 0, mkBlockAlt "x1" 30 50, mkBlockAlt "x2" 30 100,
   mkBlockAlt "y0" 130 0, mkBlockAlt "y1" 130 50, mkBlockAlt "y2" 130 100]

/-- The spec's two-column scenario: 5 blocks with left edge 10 and 5 with
left edge 300, top edges 0, 50, 100, 150, 200 in each group, image width
500. -/
def c1Blocks : List Block :=
  [mkBlock "A0" 10 0, mkBlock "A50" 10 50, mkBlock "A100" 10 100,
   mkBlock "A150" 10 150, mkBlock "A200" 10 200,
   mkBlock "B0" 300 0, mkBlock "B50" 300 50, mkBlock "B100" 300 100,
   mkBlock "B150" 300 150, mkBlock "B200" 300 200]

/-- What the code actually returns on `c1Blocks`: the fallback order,
which interleaves the two groups row by row instead of grouping the left
column before the right one. -/
def c1Interleaved : List Block :=
  [mkBlock "A0" 10 0, mkBlock "B0" 300 0, mkBlock "A50" 10 50, mkBlock "B50" 300 50,
   mkBlock "A100" 10 100, mkBlock "B100" 300 100, mkBlock "A150" 10 150,
   mkBlock "B150" 300 150, mkBlock "A200" 10 200, mkBlock "B200" 300 200]

/-- A block whose FIRST bbox point `(100, 100)` is not its coordinate
minimum `(0, 0)`. -/
def c2P : Block := ⟨"P", 1 / 2, [(100, 100), (0, 0), (100, 0), (0, 100)]⟩

/-- A block whose first bbox point and coordinate minima agree at
`(10, 10)`. -/
def c2Q : Block := ⟨"Q", 1 / 2, [(10, 10), (40, 10), (40, 30), (10, 30)]⟩

/-- A block with an empty (or, equivalently in the code, missing) bbox. -/
def emptyBlock : Block := ⟨"ghost", 1, []⟩

/-- Exactly four blocks with distinct x positions. -/
def fourBlocks : List Block :=
  [mkBlock "p" 10 0, mkBlock "q" 200 0, mkBlock "r" 390 0, mkBlock "s" 430 10]

/-- Five usable blocks whose left edges all lie beyond the image width
500. -/
def farBlocks : List Block :=
  [mkBlock "f0" 600 0, mkBlock "f1" 610 20, mkBlock "f2" 620 40,
   mkBlock "f3" 630 60, mkBlock "f4" 640 80]

/-! ### Helper lemmas and claims -/

/-! ### Basic facts about usable blocks and `x_coords` -/

theorem usable_iff (b : Block) : usable b = true ↔ b.bbox ≠ [] := by
  unfold usable
  cases h : b.bbox <;> simp [h]

theorem x_coords_length (blocks : List Block) :
    (x_coords blocks).length = (blocks.filter usable).length := by
  induction blocks with
  | nil => rfl
  | cons b bs ih =>
    unfold x_coords at ih ⊢
    by_cases hb : usable b <;>
      simp [List.filterMap_cons, List.filter_cons, hb, ih]

theorem mem_x_coords {x : ℚ} {blocks : List Block} (h : x ∈ x_coords blocks) :
    ∃ b ∈ blocks, usable b = true ∧ leftX b = x := by
  unfold x_coords at h
  rw [List.mem_filterMap] at h
  obtain ⟨b, hb, hf⟩ := h
  by_cases hu : usable b
  · rw [if_pos hu] at hf
    exact ⟨b, hb, hu, by injection hf⟩
  · rw [if_neg hu] at hf
    cases hf

/-! ### Shape of the detector output -/

instance : IsTrans ℚ gap50 :=
  ⟨fun a b c hab hbc => by unfold gap50 at *; linarith⟩

theorem mergeLoop_chain (ps : List ℚ) : ∀ last, List.Chain gap50 last (mergeLoop last ps) := by
  induction ps with
  | nil => intro last; exact List.Chain.nil
  | cons p ps ih =>
    intro last
    unfold mergeLoop
    split
    · exact List.Chain.cons (by assumption) (ih p)
    · exact ih last

theorem merge_peaks_chain (ps : List ℚ) : (merge_peaks ps).Chain' gap50 := by
  cases ps with
  | nil => exact trivial
  | cons p ps => exact mergeLoop_chain ps p

theorem detect_shape (blocks : List Block) (iw : ℤ) :
    detect_table_columns_histogram blocks iw = [] ∨
      (2 ≤ (detect_table_columns_histogram blocks iw).length ∧
        (detect_table_columns_histogram blocks iw).Chain' gap50) := by
  unfold detect_table_columns_histogram
  split
  · exact Or.inl rfl
  split
  · exact Or.inl rfl
  split
  · rename_i h2
    unfold merged_peaks at h2 ⊢
    split at h2
    · have hc : (merge_peaks (raw_peaks blocks iw)).Chain' gap50 :=
        merge_peaks_chain (raw_peaks blocks iw)
      have hs : List.Sorted (· ≤ ·) (merge_peaks (raw_peaks blocks iw)) :=
        (List.chain'_iff_pairwise.mp hc).imp fun h => by unfold gap50 at h; linarith
      rw [if_pos (by assumption), hs.insertionSort_eq]
      exact Or.inr ⟨h2, hc⟩
    · rename_i h1
      omega
  · exact Or.inl rfl

theorem detect_sorted (blocks : List Block) (iw : ℤ) :
    (detect_table_columns_histogram blocks iw).Pairwise (· ≤ ·) := by
  rcases detect_shape blocks iw with h | ⟨_, hc⟩
  · rw [h]; exact List.Pairwise.nil
  · exact (List.chain'_iff_pairwise.mp hc).imp fun h => by unfold gap50 at h; linarith

/-- C5: for every input (with a positive image width, the data-model
invariant), the Column Detector returns either the empty list or a list of
at least 2 boundaries that is strictly ascending with consecutive
boundaries more than 50 apart; in particular a singleton is never
returned. -/
theorem detector_boundaries_shape (blocks : List Block) (image_width : ℤ)
    (hw : 0 < image_width) :
    detect_table_columns_histogram blocks image_width = [] ∨
      (2 ≤ (detect_table_columns_histogram blocks image_width).length ∧
        (detect_table_columns_histogram blocks image_width).Chain'
          (fun a b => a < b ∧ 50 < b - a)) := by
  rcases detect_shape blocks image_width with h | ⟨h2, hc⟩
  · exact Or.inl h
  · exact Or.inr ⟨h2, hc.imp fun a b h => ⟨by unfold gap50 at h; linarith, h⟩⟩

/-- Witness for C5 at a concrete input that engages table mode. -/
theorem detector_boundaries_shape_witness :
    (0 : ℤ) < 500 ∧
      (detect_table_columns_histogram sixBlocks 500 = [] ∨
        (2 ≤ (detect_table_columns_histogram sixBlocks 500).length ∧
          (detect_table_columns_histogram sixBlocks 500).Chain'
            (fun a b => a < b ∧ 50 < b - a))) :=
  ⟨by decide, detector_boundaries_shape sixBlocks 500 (by decide)⟩

/-- C6: with fewer than 5 usable blocks the Column Detector returns `[]`
whatever the spatial layout and the image width; in particular it does so
for any list of exactly 4 blocks. -/
theorem below_threshold_short_circuit (blocks : List Block) (image_width : ℤ) :
    ((blocks.filter usable).length < 5 →
        detect_table_columns_histogram blocks image_width = []) ∧
      (blocks.length = 4 → detect_table_columns_histogram blocks image_width = []) := by
  have main : (blocks.filter usable).length < 5 →
      detect_table_columns_histogram blocks image_width = [] := by
    intro h5
    unfold detect_table_columns_histogram
    by_cases h1 : blocks.length < 5
    · rw [if_pos h1]
    · rw [if_neg h1, if_pos (by rw [x_coords_length]; exact h5)]
  refine ⟨main, fun h4 => main ?_⟩
  have := List.length_filter_le usable blocks
  omega

/-- Witness for C6 on a concrete 4-block input. -/
theorem below_threshold_short_circuit_witness :
    ((fourBlocks.filter usable).length < 5 ∧
        detect_table_columns_histogram fourBlocks 500 = []) ∧
      (fourBlocks.length = 4 ∧ detect_table_columns_histogram fourBlocks 500 = []) :=
  ⟨⟨by decide, (below_threshold_short_circuit fourBlocks 500).1 (by decide)⟩,
   ⟨by decide, (below_threshold_short_circuit fourBlocks 500).2 (by decide)⟩⟩


/-! ### Total-preorder facts about the sort keys -/

theorem pairLE_total (a b : ℚ × ℚ) : pairLE a b ∨ pairLE b a := by
  unfold pairLE
  rcases lt_trichotomy a.1 b.1 with h | h | h
  · exact Or.inl (Or.inl h)
  · rcases le_total a.2 b.2 with h2 | h2
    · exact Or.inl (Or.inr ⟨h, h2⟩)
    · exact Or.inr (Or.inr ⟨h.symm, h2⟩)
  · exact Or.inr (Or.inl h)

theorem pairLE_trans (a b c : ℚ × ℚ) (h1 : pairLE a b) (h2 : pairLE b c) : pairLE a c := by
  unfold pairLE at *
  rcases h1 with h1 | ⟨h1e, h1le⟩ <;> rcases h2 with h2 | ⟨h2e, h2le⟩
  · exact Or.inl (h1.trans h2)
  · exact Or.inl (h2e ▸ h1)
  · exact Or.inl (h1e ▸ h2)
  · exact Or.inr ⟨h1e.trans h2e, h1le.trans h2le⟩

instance : IsTotal Block fallbackLE := ⟨fun a b => pairLE_total _ _⟩

instance : IsTrans Block fallbackLE := ⟨fun _ _ _ => pairLE_trans _ _ _⟩

/-! ### Branch lemmas for the Block Sequencer -/

theorem all_usable_of {blocks : List Block} (hu : ∀ b ∈ blocks, b.bbox ≠ []) :
    blocks.all usable = true := by
  rw [List.all_eq_true]
  exact fun b hb => (usable_iff b).mpr (hu b hb)

theorem sort_blocks_fallback_mode {blocks : List Block} {image_width : ℤ}
    (h0 : blocks.length ≠ 0)
    (h2 : (detect_table_columns_histogram blocks image_width).length < 2)
    (hall : blocks.all usable = true) :
    sort_blocks_by_table_columns blocks image_width =
      some (List.insertionSort fallbackLE blocks) := by
  unfold sort_blocks_by_table_columns
  rw [if_neg h0, if_pos h2, if_pos hall]

theorem sort_blocks_fallback_none {blocks : List Block} {image_width : ℤ}
    (h0 : blocks.length ≠ 0)
    (h2 : (detect_table_columns_histogram blocks image_width).length < 2)
    (hall : ¬ blocks.all usable = true) :
    sort_blocks_by_table_columns blocks image_width = none := by
  unfold sort_blocks_by_table_columns
  rw [if_neg h0, if_pos h2, if_neg hall]

theorem sort_blocks_table_mode {blocks : List Block} {image_width : ℤ}
    (ht : 2 ≤ (detect_table_columns_histogram blocks image_width).length) :
    sort_blocks_by_table_columns blocks image_width =
      some ((List.insertionSort tableLE
        (blocks.filterMap
          (toEntry (detect_table_columns_histogram blocks image_width)))).map
            BlockWithColumn.block) := by
  unfold sort_blocks_by_table_columns
  have h0 : blocks.length ≠ 0 := by
    intro h0
    rw [List.length_eq_zero.mp h0] at ht
    rw [show detect_table_columns_histogram [] image_width = [] from rfl] at ht
    simp at ht
  rw [if_neg h0, if_neg (by omega)]

/-! ### C1: the two-column scenario -/

/-- C1 counterexample: on the spec's own two-column input the Column
Detector does NOT return exactly one boundary (it returns none at all:
the left cluster occupies histogram bin 0, which the interior-bin peak
scan never examines, so only the right cluster yields a peak and a single
peak is discarded). -/
theorem two_column_scenario_counterexample :
    ¬ (detect_table_columns_histogram c1Blocks 500).length = 1 := by decide

/-- C1 amended: on the spec's two-column input the Column Detector
returns no boundaries, and the Block Sequencer therefore uses the
fallback order, interleaving the two groups row by row (ascending top
edge, then left edge) instead of emitting the left column before the
right one. -/
theorem two_column_scenario_amended :
    detect_table_columns_histogram c1Blocks 500 = [] ∧
      sort_blocks_by_table_columns c1Blocks 500 = some c1Interleaved := by decide

/-! ### C2: what key the fallback sort really uses -/

/-- C2 counterexample: a fallback-mode input on which the code's order
(by FIRST bbox point) differs from the spec's order (by coordinate
minima): `c2P` has first point `(100, 100)` but minima `(0, 0)`. -/
theorem fallback_min_key_counterexample :
    sort_blocks_by_table_columns [c2P, c2Q] 100 = some [c2Q, c2P] ∧
      specFallbackOrder [c2P, c2Q] = [c2P, c2Q] ∧
      ([c2Q, c2P] : List Block) ≠ [c2P, c2Q] := by decide

/-- C2 amended: in fallback mode (with every bbox nonempty, else the code
raises) the Sequencer performs a stable sort by the key
`(bbox[0].y, bbox[0].x)` taken from the FIRST bbox point, not from the
coordinate minima: the output is a permutation of the input, pairwise
ordered by that key, and any input subsequence already ordered by that
key keeps its relative order. -/
theorem fallback_first_point_sort (blocks : List Block) (image_width : ℤ)
    (hw : 0 < image_width)
    (hfb : (detect_table_columns_histogram blocks image_width).length < 2)
    (hu : ∀ b ∈ blocks, b.bbox ≠ []) :
    ∃ l, sort_blocks_by_table_columns blocks image_width = some l ∧
      l.Perm blocks ∧ l.Pairwise fallbackLE ∧
      ∀ c : List Block, c.Pairwise fallbackLE → c.Sublist blocks → c.Sublist l := by
  by_cases h0 : blocks.length = 0
  · rw [List.length_eq_zero.mp h0]
    refine ⟨[], rfl, List.Perm.refl [], List.Pairwise.nil, ?_⟩
    intro c _ hc
    rw [List.sublist_nil.mp hc]
  · rw [sort_blocks_fallback_mode h0 hfb (all_usable_of hu)]
    exact ⟨_, rfl, List.perm_insertionSort _ _,
      List.sorted_insertionSort fallbackLE blocks,
      fun c hc hcs => List.sublist_insertionSort hc hcs⟩

/-- Witness for the amended C2 on a concrete fallback-mode input. -/
theorem fallback_first_point_sort_witness :
    ∃ l, sort_blocks_by_table_columns [c2P, c2Q] 100 = some l ∧
      l.Perm [c2P, c2Q] ∧ l.Pairwise fallbackLE ∧
      ∀ c : List Block, c.Pairwise fallbackLE → c.Sublist [c2P, c2Q] → c.Sublist l :=
  fallback_first_point_sort [c2P, c2Q] 100 (by decide) (by decide) (by decide)

/-! ### C3: exception behaviour -/

/-- C3 counterexample: a single block with an empty bbox reaches the
fallback path, whose sort key reads `b['bbox'][0]` and raises; the
Sequencer does not retain the block, it aborts (modelled by `none`). -/
theorem empty_bbox_crash_counterexample :
    sort_blocks_by_table_columns [emptyBlock] 100 = none := by decide

/-- C3 amended: the Column Detector never raises (all its bbox reads are
guarded), and the Block Sequencer returns an ordering whenever every
block's bbox is nonempty; but a block with an empty or missing bbox makes
the fallback path raise instead of being retained there. -/
theorem sequencer_total_on_nonempty_bboxes (blocks : List Block) (image_width : ℤ)
    (hw : 0 < image_width) (hu : ∀ b ∈ blocks, b.bbox ≠ []) :
    ∃ l, sort_blocks_by_table_columns blocks image_width = some l := by
  by_cases h0 : blocks.length = 0
  · exact ⟨blocks, by unfold sort_blocks_by_table_columns; rw [if_pos h0]⟩
  by_cases ht : 2 ≤ (detect_table_columns_histogram blocks image_width).length
  · exact ⟨_, sort_blocks_table_mode ht⟩
  · exact ⟨_, sort_blocks_fallback_mode h0 (by omega) (all_usable_of hu)⟩

/-- Witness for the amended C3. -/
theorem sequencer_total_witness :
    ∃ l, sort_blocks_by_table_columns sixBlocks 500 = some l :=
  sequencer_total_on_nonempty_bboxes sixBlocks 500 (by decide) (by decide)

/-! ### C4: the column-assignment rule -/

theorem columnIdxAux_eq (x : ℚ) (bs : List ℚ) (hp : bs.Pairwise (· ≤ ·)) :
    ∀ i acc, columnIdxAux x bs i acc =
      if bs.countP (fun b => decide (b ≤ x)) = 0 then acc
      else i + bs.countP (fun b => decide (b ≤ x)) := by
  induction bs with
  | nil => intro i acc; simp [columnIdxAux]
  | cons b bs ih =>
    intro i acc
    have hble := (List.pairwise_cons.mp hp).1
    have hps := (List.pairwise_cons.mp hp).2
    unfold columnIdxAux
    by_cases hbx : b ≤ x
    · rw [if_pos hbx, ih hps]
      by_cases hz : bs.countP (fun b => decide (b ≤ x)) = 0 <;>
        simp [List.countP_cons, hbx, hz] <;> omega
    · rw [if_neg hbx, ih hps]
      have hzz : bs.countP (fun b => decide (b ≤ x)) = 0 := by
        rw [List.countP_eq_zero]
        intro c hc
        simp only [decide_eq_true_eq]
        intro hcx
        exact hbx (le_trans (hble c hc) hcx)
      simp [List.countP_cons, hbx, hzz]

theorem columnIdx_eq_countP (x : ℚ) (bs : List ℚ) (hp : bs.Pairwise (· ≤ ·)) :
    columnIdx x bs = bs.countP (fun b => decide (b ≤ x)) := by
  unfold columnIdx
  rw [columnIdxAux_eq x bs hp 0 0]
  split <;> omega

/-- C4: in table mode the column index assigned to a usable block equals
the number of detected boundaries that are at most its left edge, and is
therefore between 0 and the boundary count inclusive (the maximum marks
the rightmost column, past the last boundary). -/
theorem column_index_counts_boundaries (blocks : List Block) (image_width : ℤ)
    (b : Block) (hw : 0 < image_width) (hb : b ∈ blocks) (hu : b.bbox ≠ [])
    (ht : 2 ≤ (detect_table_columns_histogram blocks image_width).length) :
    columnIdx (leftX b) (detect_table_columns_histogram blocks image_width) =
        (detect_table_columns_histogram blocks image_width).countP
          (fun x => decide (x ≤ leftX b)) ∧
      columnIdx (leftX b) (detect_table_columns_histogram blocks image_width) ≤
        (detect_table_columns_histogram blocks image_width).length := by
  have h := columnIdx_eq_countP (leftX b) _ (detect_sorted blocks image_width)
  exact ⟨h, h ▸ List.countP_le_length _⟩

/-- Witness for C4 at a concrete table-mode input. -/
theorem column_index_counts_boundaries_witness :
    (0 : ℤ) < 500 ∧ mkBlock "b0" 130 0 ∈ sixBlocks ∧
      (mkBlock "b0" 130 0).bbox ≠ [] ∧
      2 ≤ (detect_table_columns_histogram sixBlocks 500).length ∧
      (columnIdx (leftX (mkBlock "b0" 130 0))
            (detect_table_columns_histogram sixBlocks 500) =
          (detect_table_columns_histogram sixBlocks 500).countP
            (fun x => decide (x ≤ leftX (mkBlock "b0" 130 0))) ∧
        columnIdx (leftX (mkBlock "b0" 130 0))
            (detect_table_columns_histogram sixBlocks 500) ≤
          (detect_table_columns_histogram sixBlocks 500).length) :=
  ⟨by decide, by decide, by decide, by decide,
   column_index_counts_boundaries sixBlocks 500 (mkBlock "b0" 130 0)
     (by decide) (by decide) (by decide) (by decide)⟩

/-! ### C7 and C10: which blocks survive the Sequencer -/

theorem filterMap_toEntry_map_block (bounds : List ℚ) (blocks : List Block) :
    (blocks.filterMap (toEntry bounds)).map BlockWithColumn.block =
      blocks.filter usable := by
  induction blocks with
  | nil => rfl
  | cons b bs ih =>
    by_cases hb : b.bbox.isEmpty <;>
      simp [toEntry, List.filterMap_cons, List.filter_cons, usable, hb, ih]

/-- C7: with every bbox nonempty the Sequencer's output is a permutation
of its input; and in table mode the output is a permutation of exactly
the usable blocks (those with nonempty bbox) — no others are dropped. -/
theorem sequencer_set_preservation (blocks : List Block) (image_width : ℤ)
    (hw : 0 < image_width) :
    (2 ≤ (detect_table_columns_histogram blocks image_width).length →
        ∃ l, sort_blocks_by_table_columns blocks image_width = some l ∧
          l.Perm (blocks.filter usable)) ∧
      ((∀ b ∈ blocks, b.bbox ≠ []) →
        ∃ l, sort_blocks_by_table_columns blocks image_width = some l ∧
          l.Perm blocks) := by
  have table : 2 ≤ (detect_table_columns_histogram blocks image_width).length →
      ∃ l, sort_blocks_by_table_columns blocks image_width = some l ∧
        l.Perm (blocks.filter usable) := by
    intro ht
    refine ⟨_, sort_blocks_table_mode ht, ?_⟩
    have hperm := (List.perm_insertionSort tableLE
      (blocks.filterMap
        (toEntry (detect_table_columns_histogram blocks image_width)))).map
          BlockWithColumn.block
    rwa [filterMap_toEntry_map_block] at hperm
  refine ⟨table, fun hu => ?_⟩
  have hfe : blocks.filter usable = blocks :=
    List.filter_eq_self.mpr fun b hb => (usable_iff b).mpr (hu b hb)
  by_cases h0 : blocks.length = 0
  · refine ⟨blocks, by unfold sort_blocks_by_table_columns; rw [if_pos h0], List.Perm.refl _⟩
  by_cases ht : 2 ≤ (detect_table_columns_histogram blocks image_width).length
  · obtain ⟨l, hl, hp⟩ := table ht
    exact ⟨l, hl, hfe ▸ hp⟩
  · exact ⟨_, sort_blocks_fallback_mode h0 (by omega) (all_usable_of hu),
      List.perm_insertionSort _ _⟩

/-- Witness for C7 at a concrete table-mode, all-usable input. -/
theorem sequencer_set_preservation_witness :
    (∃ l, sort_blocks_by_table_columns sixBlocks 500 = some l ∧
        l.Perm (sixBlocks.filter usable)) ∧
      ∃ l, sort_blocks_by_table_columns sixBlocks 500 = some l ∧ l.Perm sixBlocks :=
  ⟨(sequencer_set_preservation sixBlocks 500 (by decide)).1 (by decide),
   (sequencer_set_preservation sixBlocks 500 (by decide)).2 (by decide)⟩

/-- C10: whenever the Column Detector returns a nonempty boundary list,
at least 5 input blocks have a nonempty bbox, and the table-mode output
of the Block Sequencer keeps at least 5 blocks. -/
theorem table_mode_has_five_blocks (blocks : List Block) (image_width : ℤ)
    (hw : 0 < image_width)
    (hne : detect_table_columns_histogram blocks image_width ≠ []) :
    5 ≤ (blocks.filter usable).length ∧
      ∃ l, sort_blocks_by_table_columns blocks image_width = some l ∧
        5 ≤ l.length := by
  have h5 : 5 ≤ (x_coords blocks).length := by
    by_contra h
    apply hne
    unfold detect_table_columns_histogram
    by_cases h1 : blocks.length < 5
    · rw [if_pos h1]
    · rw [if_neg h1, if_pos (by omega)]
  have hfu : 5 ≤ (blocks.filter usable).length := x_coords_length blocks ▸ h5
  have ht : 2 ≤ (detect_table_columns_histogram blocks image_width).length := by
    rcases detect_shape blocks image_width with h | ⟨h2, _⟩
    · exact absurd h hne
    · exact h2
  refine ⟨hfu, _, sort_blocks_table_mode ht, ?_⟩
  have hl : ((List.insertionSort tableLE
      (blocks.filterMap
        (toEntry (detect_table_columns_histogram blocks image_width)))).map
          BlockWithColumn.block).length = (blocks.filter usable).length := by
    rw [← filterMap_toEntry_map_block
      (detect_table_columns_histogram blocks image_width) blocks]
    simp only [List.length_map]
    exact (List.perm_insertionSort _ _).length_eq
  omega

/-- Witness for C10 at a concrete table-mode input. -/
theorem table_mode_has_five_blocks_witness :
    5 ≤ (sixBlocks.filter usable).length ∧
      ∃ l, sort_blocks_by_table_columns sixBlocks 500 = some l ∧ 5 ≤ l.length :=
  table_mode_has_five_blocks sixBlocks 500 (by decide) (by decide)

/-! ### C9: left edges outside the histogram range -/

/-- C9: left edges outside `[0, image_width]` are never counted in any
histogram bin (while still counting toward the block-count threshold), so
when every usable block's left edge is negative or beyond the image
width, the whole histogram is zero and no column boundary can arise. -/
theorem out_of_range_left_edges_never_binned (blocks : List Block) (image_width : ℤ)
    (hw : 0 < image_width)
    (h : ∀ b ∈ blocks, usable b = true → leftX b < 0 ∨ (image_width : ℚ) < leftX b) :
    (∀ i, hist image_width (x_coords blocks) i = 0) ∧
      detect_table_columns_histogram blocks image_width = [] := by
  have hx : ∀ x ∈ x_coords blocks, binIdx image_width x = none := by
    intro x hxm
    obtain ⟨b, hb, hub, hlx⟩ := mem_x_coords hxm
    unfold binIdx
    rw [if_pos (show x < 0 ∨ (image_width : ℚ) < x from hlx ▸ h b hb hub)]
  have hh : ∀ i, hist image_width (x_coords blocks) i = 0 := by
    intro i
    unfold hist
    rw [List.countP_eq_zero]
    intro x hxm
    simp [hx x hxm]
  refine ⟨hh, ?_⟩
  have hrp : raw_peaks blocks image_width = [] := by
    unfold raw_peaks
    rw [List.map_eq_nil_iff, List.filter_eq_nil_iff]
    intro i _
    simp only [decide_eq_true_eq, not_and]
    intro h1
    exfalso
    rw [hh i] at h1
    have h3 : 3 ≤ threshold blocks := le_max_left _ _
    omega
  have hmp : merged_peaks blocks image_width = [] := by
    unfold merged_peaks
    rw [hrp]
    simp
  unfold detect_table_columns_histogram
  rw [hmp]
  split
  · rfl
  split
  · rfl
  rw [if_neg (by simp)]

/-- Witness for C9: five usable blocks all beyond the image width. -/
theorem out_of_range_left_edges_witness :
    hist 500 (x_coords farBlocks) 3 = 0 ∧
      detect_table_columns_histogram farBlocks 500 = [] :=
  ⟨(out_of_range_left_edges_never_binned farBlocks 500 (by decide) (by decide)).1 3,
   (out_of_range_left_edges_never_binned farBlocks 500 (by decide) (by decide)).2⟩

/-! ### Generic stable-sort lemmas for the noninterference claim -/

theorem orderedInsert_map {α β : Type} (f : α → β) (r : α → α → Prop)
    (s : β → β → Prop) [DecidableRel r] [DecidableRel s]
    (hrs : ∀ a b, s (f a) (f b) ↔ r a b) (a : α) :
    ∀ l : List α, (l.map f).orderedInsert s (f a) = (l.orderedInsert r a).map f
  | [] => rfl
  | b :: l => by
    simp only [List.map_cons, List.orderedInsert]
    by_cases hr : r a b
    · rw [if_pos ((hrs a b).mpr hr), if_pos hr]
      rfl
    · rw [if_neg (fun hs => hr ((hrs a b).mp hs)), if_neg hr,
        orderedInsert_map f r s hrs a l]
      rfl

theorem insertionSort_map {α β : Type} (f : α → β) (r : α → α → Prop)
    (s : β → β → Prop) [DecidableRel r] [DecidableRel s]
    (hrs : ∀ a b, s (f a) (f b) ↔ r a b) :
    ∀ l : List α, (l.map f).insertionSort s = (l.insertionSort r).map f
  | [] => rfl
  | b :: l => by
    simp only [List.map_cons, List.insertionSort]
    rw [insertionSort_map f r s hrs l]
    exact orderedInsert_map f r s hrs b (l.insertionSort r)

theorem insertionSort_congr {α : Type} (r s : α → α → Prop)
    [DecidableRel r] [DecidableRel s] (hrs : ∀ a b, r a b ↔ s a b) (l : List α) :
    l.insertionSort r = l.insertionSort s := by
  have hmap := insertionSort_map (id : α → α) s r (fun a b => hrs a b) l
  simpa using hmap

theorem range_map_getD {α : Type} (d : α) :
    ∀ l : List α, ((List.range l.length).map fun i => l.getD i d) = l
  | [] => rfl
  | b :: l => by
    have hcomp : ((fun i => (b :: l).getD i d) ∘ Nat.succ) = fun i => l.getD i d := by
      funext i
      simp [List.getD_cons_succ]
    simp only [List.length_cons, List.range_succ_eq_map, List.map_cons, List.map_map,
      List.getD_cons_zero]
    rw [hcomp, range_map_getD d l]

theorem filterMap_ite {α β : Type} (p : α → Bool) (g : α → β) :
    ∀ l : List α,
      (l.filterMap fun a => if p a then none else some (g a)) =
        (l.filter fun a => !p a).map g
  | [] => rfl
  | b :: l => by
    by_cases hb : p b <;>
      simp [List.filterMap_cons, List.filter_cons, hb, filterMap_ite p g l]

/-! ### Everything the algorithms read factors through the bboxes -/

theorem leftX_congr {a b : Block} (h : a.bbox = b.bbox) : leftX a = leftX b := by
  unfold leftX
  rw [h]

theorem topY_congr {a b : Block} (h : a.bbox = b.bbox) : topY a = topY b := by
  unfold topY
  rw [h]

theorem usable_congr {a b : Block} (h : a.bbox = b.bbox) : usable a = usable b := by
  unfold usable
  rw [h]

theorem fallbackKey_congr {a b : Block} (h : a.bbox = b.bbox) :
    fallbackKey a = fallbackKey b := by
  unfold fallbackKey
  rw [h]

theorem x_coords_congr {bs₁ bs₂ : List Block} (h : SameBboxes bs₁ bs₂) :
    x_coords bs₁ = x_coords bs₂ := by
  unfold SameBboxes at h
  induction h with
  | nil => rfl
  | cons hab htail ih =>
    simp only [x_coords, List.filterMap_cons] at ih ⊢
    rw [usable_congr hab, leftX_congr hab, ih]

theorem getD_bbox_congr {bs₁ bs₂ : List Block} (h : SameBboxes bs₁ bs₂) :
    ∀ i, (bs₁.getD i dfltBlock).bbox = (bs₂.getD i dfltBlock).bbox := by
  unfold SameBboxes at h
  induction h with
  | nil => intro i; rfl
  | cons hab htail ih =>
    intro i
    cases i with
    | zero => simpa using hab
    | succ n => simpa using ih n

theorem all_usable_congr {bs₁ bs₂ : List Block} (h : SameBboxes bs₁ bs₂) :
    bs₁.all usable = bs₂.all usable := by
  unfold SameBboxes at h
  induction h with
  | nil => rfl
  | cons hab htail ih => simp only [List.all_cons, usable_congr hab, ih]

theorem detect_congr {bs₁ bs₂ : List Block} (iw : ℤ) (h : SameBboxes bs₁ bs₂) :
    detect_table_columns_histogram bs₁ iw = detect_table_columns_histogram bs₂ iw := by
  have hlen : bs₁.length = bs₂.length := List.Forall₂.length_eq h
  have hx := x_coords_congr h
  unfold detect_table_columns_histogram merged_peaks raw_peaks threshold
  rw [hlen, hx]

theorem posLE_congr {bs₁ bs₂ : List Block} (h : SameBboxes bs₁ bs₂) (i j : ℕ) :
    posLE bs₁ i j ↔ posLE bs₂ i j := by
  unfold posLE fallbackLE
  rw [fallbackKey_congr (getD_bbox_congr h i), fallbackKey_congr (getD_bbox_congr h j)]

theorem posTableLE_congr {bs₁ bs₂ : List Block} (h : SameBboxes bs₁ bs₂)
    (bounds : List ℚ) (i j : ℕ) :
    posTableLE bs₁ bounds i j ↔ posTableLE bs₂ bounds i j := by
  unfold posTableLE tableLE entryOf
  rw [leftX_congr (getD_bbox_congr h i), topY_congr (getD_bbox_congr h i),
    leftX_congr (getD_bbox_congr h j), topY_congr (getD_bbox_congr h j)]

/-! ### Positional form of the two sequencer branches -/

theorem fallback_repr (blocks : List Block) :
    List.insertionSort fallbackLE blocks =
      (List.insertionSort (posLE blocks) (List.range blocks.length)).map
        (fun i => blocks.getD i dfltBlock) := by
  conv_lhs => rw [← range_map_getD dfltBlock blocks]
  exact insertionSort_map (fun i => blocks.getD i dfltBlock) (posLE blocks) fallbackLE
    (fun a b => Iff.rfl) (List.range blocks.length)

theorem table_repr (blocks : List Block) (bounds : List ℚ) :
    (List.insertionSort tableLE (blocks.filterMap (toEntry bounds))).map
        BlockWithColumn.block =
      (List.insertionSort (posTableLE blocks bounds)
          ((List.range blocks.length).filter
            fun i => !(blocks.getD i dfltBlock).bbox.isEmpty)).map
        (fun i => blocks.getD i dfltBlock) := by
  conv_lhs => rw [← range_map_getD dfltBlock blocks]
  rw [List.filterMap_map]
  have hshape : (toEntry bounds ∘ fun i => blocks.getD i dfltBlock) =
      fun i => if (blocks.getD i dfltBlock).bbox.isEmpty then none
        else some (entryOf blocks bounds i) := by
    funext i
    simp [toEntry, entryOf, Function.comp]
  rw [hshape, filterMap_ite]
  rw [insertionSort_map (entryOf blocks bounds) (posTableLE blocks bounds) tableLE
    (fun a b => Iff.rfl)]
  rw [List.map_map]
  rfl

/-! ### C8: noninterference of text and confidence -/

/-- C8: two equal-length inputs that agree on every block's bbox (with the
same image width) yield identical detector boundaries, and the Sequencer
applies the same permutation of input positions to both runs (or raises
on both): one shared index list describes both outputs. -/
theorem noninterference_of_text_and_confidence (bs₁ bs₂ : List Block)
    (image_width : ℤ) (hw : 0 < image_width) (h : SameBboxes bs₁ bs₂) :
    detect_table_columns_histogram bs₁ image_width =
        detect_table_columns_histogram bs₂ image_width ∧
      ((sort_blocks_by_table_columns bs₁ image_width = none ∧
          sort_blocks_by_table_columns bs₂ image_width = none) ∨
        ∃ is : List ℕ, (∀ i ∈ is, i < bs₁.length) ∧
          sort_blocks_by_table_columns bs₁ image_width =
            some (is.map fun i => bs₁.getD i dfltBlock) ∧
          sort_blocks_by_table_columns bs₂ image_width =
            some (is.map fun i => bs₂.getD i dfltBlock)) := by
  have hlen : bs₁.length = bs₂.length := List.Forall₂.length_eq h
  have hdet := detect_congr image_width h
  refine ⟨hdet, ?_⟩
  by_cases h0 : bs₁.length = 0
  · have h0' : bs₂.length = 0 := by omega
    right
    refine ⟨[], by simp, ?_, ?_⟩
    · unfold sort_blocks_by_table_columns
      rw [if_pos h0, List.length_eq_zero.mp h0]
      rfl
    · unfold sort_blocks_by_table_columns
      rw [if_pos h0', List.length_eq_zero.mp h0']
      rfl
  by_cases ht : 2 ≤ (detect_table_columns_histogram bs₁ image_width).length
  · right
    refine ⟨List.insertionSort
        (posTableLE bs₁ (detect_table_columns_histogram bs₁ image_width))
        ((List.range bs₁.length).filter
          fun i => !(bs₁.getD i dfltBlock).bbox.isEmpty), ?_, ?_, ?_⟩
    · intro i hi
      exact List.mem_range.mp
        (List.mem_filter.mp ((List.perm_insertionSort _ _).mem_iff.mp hi)).1
    · rw [sort_blocks_table_mode ht, table_repr]
    · have ht' : 2 ≤ (detect_table_columns_histogram bs₂ image_width).length := by
        rw [← hdet]; exact ht
      rw [sort_blocks_table_mode ht', table_repr]
      have hfilter : ((List.range bs₂.length).filter
            fun i => !(bs₂.getD i dfltBlock).bbox.isEmpty) =
          ((List.range bs₁.length).filter
            fun i => !(bs₁.getD i dfltBlock).bbox.isEmpty) := by
        rw [← hlen]
        exact List.filter_congr fun i _ => by rw [getD_bbox_congr h i]
      have hsort : List.insertionSort
            (posTableLE bs₂ (detect_table_columns_histogram bs₂ image_width))
            ((List.range bs₁.length).filter
              fun i => !(bs₁.getD i dfltBlock).bbox.isEmpty) =
          List.insertionSort
            (posTableLE bs₁ (detect_table_columns_histogram bs₁ image_width))
            ((List.range bs₁.length).filter
              fun i => !(bs₁.getD i dfltBlock).bbox.isEmpty) := by
        rw [← hdet]
        exact insertionSort_congr _ _ (fun i j => (posTableLE_congr h _ i j).symm) _
      rw [hfilter, hsort]
  · have h2 : (detect_table_columns_histogram bs₁ image_width).length < 2 := by omega
    have h2' : (detect_table_columns_histogram bs₂ image_width).length < 2 := by
      rw [← hdet]; exact h2
    by_cases hall : bs₁.all usable = true
    · right
      refine ⟨List.insertionSort (posLE bs₁) (List.range bs₁.length), ?_, ?_, ?_⟩
      · intro i hi
        exact List.mem_range.mp ((List.perm_insertionSort _ _).mem_iff.mp hi)
      · rw [sort_blocks_fallback_mode h0 h2 hall, fallback_repr]
      · rw [sort_blocks_fallback_mode (by omega) h2'
          (by rw [← all_usable_congr h]; exact hall), fallback_repr]
        have hsort : List.insertionSort (posLE bs₂) (List.range bs₂.length) =
            List.insertionSort (posLE bs₁) (List.range bs₁.length) := by
          rw [← hlen]
          exact insertionSort_congr _ _ (fun i j => (posLE_congr h i j).symm) _
        rw [hsort]
    · left
      refine ⟨sort_blocks_fallback_none h0 h2 hall, ?_⟩
      refine sort_blocks_fallback_none (by omega) h2' ?_
      rw [← all_usable_congr h]
      exact hall

/-- Witness for C8: the same geometry with different texts and
confidences. -/
theorem noninterference_witness :
    detect_table_columns_histogram sixBlocks 500 =
        detect_table_columns_histogram sixBlocksAlt 500 ∧
      ((sort_blocks_by_table_columns sixBlocks 500 = none ∧
          sort_blocks_by_table_columns sixBlocksAlt 500 = none) ∨
        ∃ is : List ℕ, (∀ i ∈ is, i < sixBlocks.length) ∧
          sort_blocks_by_table_columns sixBlocks 500 =
            some (is.map fun i => sixBlocks.getD i dfltBlock) ∧
          sort_blocks_by_table_columns sixBlocksAlt 500 =
            some (is.map fun i => sixBlocksAlt.getD i dfltBlock)) :=
  noninterference_of_text_and_confidence sixBlocks sixBlocksAlt 500 (by decide)
    (by unfold SameBboxes sixBlocks sixBlocksAlt
        repeat first
          | exact List.Forall₂.nil
          | refine List.Forall₂.cons (by decide) ?_)

end DockerOCR
